import Mathlib

/-!
Verification of the heat-method geodesic pipeline of
`TP2-MVA-Geodesics-On-Meshes.ipynb` against its specification.

The notebook is an exercise sheet: several operator-assembly cells are left
blank (`Na = `, `A = `, `GradMat = `, `Delta = `, the cotangent Laplacian,
the geodesic solve and farthest-point sampling are `## insert your code
here`).  The definitions below therefore split into two groups:

* translated from the source code that is present (`cota`, the Dirac vector
  `delta`, the heat-step solve `u = np.linalg.solve((Ac+t*Delta).toarray(),
  delta)`), and
* modelled from the spec where the source is blank (gradient / divergence /
  Laplacian / mass assembly, the geodesic pipeline, farthest-point
  sampling); each such definition carries a `Modelled from the spec:` note.

Real-valued numpy computations are embedded over `ℝ` (exact real
arithmetic); the dense linear solve `np.linalg.solve` is embedded as the
exact solution of the linear system, computed by Cramer's rule via the
adjugate, which agrees with the unique solution whenever the system matrix
is nonsingular.
-/

namespace Geodesics

open Matrix

/-! ### Basic 3-vector operations

`amplitude = lambda X: np.sqrt(np.sum(X**2, axis=1))` is in the source
(per-row Euclidean norm); `vnorm` is its single-vector form.
`cross3` is the 3D cross product `np.cross`. -/

/-- Euclidean norm of a 3-vector, from the source `amplitude` lambda
(`np.sqrt(np.sum(X**2))`). -/
noncomputable def vnorm (v : Fin 3 → ℝ) : ℝ :=
  Real.sqrt (v 0 ^ 2 + v 1 ^ 2 + v 2 ^ 2)

/-- Componentwise product summed: `np.sum(a * b, axis=1)` for one row. -/
noncomputable def dot3 (a b : Fin 3 → ℝ) : ℝ :=
  a 0 * b 0 + a 1 * b 1 + a 2 * b 2

/-- 3D cross product (`np.cross`, the `∧` of the notebook's formulas). -/
noncomputable def cross3 (a b : Fin 3 → ℝ) : Fin 3 → ℝ :=
  ![a 1 * b 2 - a 2 * b 1, a 2 * b 0 - a 0 * b 2, a 0 * b 1 - a 1 * b 0]

/-- Modelled from the spec: the `normalize` cell of the source is blank;
the spec's `â` (unit-normalized vector) is `v / ‖v‖`. -/
noncomputable def normalize (v : Fin 3 → ℝ) : Fin 3 → ℝ :=
  fun s => v s / vnorm v

/-! ### The angle cotangent `cota`, translated from the source:
```
def cota(a,b):
    x = np.arccos(np.sum(normalize(a) * normalize(b), axis=1))
    return np.cos(x)/(np.sin(x) + 1e-8)
``` -/

/-- The intermediate `x` of the source `cota`:
`arccos` of the dot product of the normalized vectors. -/
noncomputable def cotaAngle (a b : Fin 3 → ℝ) : ℝ :=
  Real.arccos (dot3 (normalize a) (normalize b))

/-- The denominator of the source `cota`: `np.sin(x) + 1e-8`. -/
noncomputable def cotaDenom (a b : Fin 3 → ℝ) : ℝ :=
  Real.sin (cotaAngle a b) + 1e-8

/-- The source `cota`: `np.cos(x)/(np.sin(x) + 1e-8)`. -/
noncomputable def cota (a b : Fin 3 → ℝ) : ℝ :=
  Real.cos (cotaAngle a b) / cotaDenom a b

/-- The spec's angle-cotangent, written from the spec's words:
"cot(θ) = cos(θ)/(sin(θ)+ε), θ = arccos(â·b̂)", with `â·b̂` the dot
product of the vectors divided by the product of their norms, ε = 1e-8. -/
noncomputable def cotaSpec (a b : Fin 3 → ℝ) : ℝ :=
  Real.cos (Real.arccos (dot3 a b / (vnorm a * vnorm b))) /
    (Real.sin (Real.arccos (dot3 a b / (vnorm a * vnorm b))) + 1e-8)

/-! ### Exact linear solving (the embedding of `np.linalg.solve`) -/

/-- Dirac vector at index `i`: the source
`delta = np.zeros((n,1)); delta[i] = 1`. -/
def dirac {n : ℕ} {K : Type} [Zero K] [One K] (i : Fin n) : Fin n → K :=
  fun j => if j = i then 1 else 0

/-- Embedding of `np.linalg.solve M b`: the exact solution of `M x = b`
computed by Cramer's rule (adjugate over the determinant).  Meaningful
exactly when `M.det ≠ 0`, which is when `np.linalg.solve` succeeds. -/
def linsolve {n : ℕ} {K : Type} [Field K] (M : Matrix (Fin n) (Fin n) K)
    (b : Fin n → K) : Fin n → K :=
  M.det⁻¹ • (M.adjugate *ᵥ b)

theorem linsolve_solves {n : ℕ} {K : Type} [Field K]
    {M : Matrix (Fin n) (Fin n) K} (hdet : M.det ≠ 0) (b : Fin n → K) :
    M *ᵥ linsolve M b = b := by
  unfold linsolve
  rw [Matrix.mulVec_smul, Matrix.mulVec_mulVec, Matrix.mul_adjugate,
    Matrix.smul_mulVec_assoc, Matrix.one_mulVec, smul_smul,
    inv_mul_cancel₀ hdet, one_smul]

theorem linsolve_unique {n : ℕ} {K : Type} [Field K]
    {M : Matrix (Fin n) (Fin n) K} (hdet : M.det ≠ 0) {b v : Fin n → K}
    (hv : M *ᵥ v = b) : linsolve M b = v := by
  have hu : IsUnit M.det := isUnit_iff_ne_zero.mpr hdet
  have h1 : M *ᵥ linsolve M b = M *ᵥ v := by
    rw [linsolve_solves hdet, hv]
  have h2 := congrArg (fun w => M⁻¹ *ᵥ w) h1
  simpa [Matrix.mulVec_mulVec, Matrix.nonsing_inv_mul _ hu] using h2

/-- The heat step of the pipeline, translated from the source line
`u = np.squeeze(np.linalg.solve((Ac+t*Delta).toarray(),delta))`:
solve `(Mass + t·Δ) u = δᵢ`.  (`Ac` is the lumped mass matrix; its
construction cell is blank in the source, so it enters here as a
parameter.) -/
def heatStep {n : ℕ} {K : Type} [Field K] (Mass Δ : Matrix (Fin n) (Fin n) K)
    (t : K) (i : Fin n) : Fin n → K :=
  linsolve (Mass + t • Δ) (dirac i)

/-- C1: for every lumped mass matrix `Mass`, Laplacian `Δ`, positive time
step `t` and source index `i`, if the system matrix is nonsingular
(i.e. the solve succeeds) then the heat step returns a `u` with
`(Mass + t·Δ) u = δ`, where `δ` is 1 at index `i` and 0 elsewhere. -/
theorem heatStep_solves_system {n : ℕ} {K : Type} [LinearOrderedField K]
    (Mass Δ : Matrix (Fin n) (Fin n) K) (t : K) (i : Fin n)
    (ht : 0 < t) (hdet : (Mass + t • Δ).det ≠ 0) :
    (Mass + t • Δ) *ᵥ heatStep Mass Δ t i = dirac i ∧
      dirac (K := K) i i = 1 ∧ ∀ j, j ≠ i → dirac (K := K) i j = 0 := by
  refine ⟨linsolve_solves hdet _, ?_, ?_⟩
  · simp [dirac]
  · intro j hj
    simp [dirac, hj]

theorem heatStep_solves_system_witness :
    (0 : ℚ) < 1 ∧
      ((1 : Matrix (Fin 1) (Fin 1) ℚ) + (1 : ℚ) • (0 : Matrix (Fin 1) (Fin 1) ℚ)).det ≠ 0 ∧
      (((1 : Matrix (Fin 1) (Fin 1) ℚ) + (1 : ℚ) • (0 : Matrix (Fin 1) (Fin 1) ℚ)) *ᵥ
          heatStep 1 0 1 0 = dirac 0 ∧
        dirac (K := ℚ) (0 : Fin 1) (0 : Fin 1) = 1 ∧
        ∀ j, j ≠ (0 : Fin 1) → dirac (K := ℚ) (0 : Fin 1) j = 0) :=
  ⟨by norm_num, by simp, heatStep_solves_system 1 0 1 0 (by norm_num) (by simp)⟩

/-! ### Claims C4 and C10, about `cota` -/

theorem vnorm_e1 : vnorm ![1, 0, 0] = 1 := by
  simp [vnorm]

theorem ne_zero_e1 : (![1, 0, 0] : Fin 3 → ℝ) ≠ 0 := by
  intro h
  have h0 := congrFun h 0
  simp at h0

theorem ne_zero_e12 : (![1, 1, 0] : Fin 3 → ℝ) ≠ 0 := by
  intro h
  have h0 := congrFun h 0
  simp at h0

theorem dot3_e1_e12 :
    dot3 (normalize ![1, 0, 0]) (normalize ![1, 1, 0]) = 1 / Real.sqrt 2 := by
  have hb : vnorm ![1, 1, 0] = Real.sqrt 2 := by
    simp [vnorm]
    norm_num
  simp [dot3, normalize, vnorm_e1, hb]

/-- C4: for nonzero vectors `a`, `b`, `cota` computes the spec's ε-relaxed
cotangent `cos(θ)/(sin(θ)+1e-8)` with `θ = arccos(â·b̂)`; and it is not the
exact cotangent: on the concrete pair `(1,0,0)`, `(1,1,0)` (angle π/4) its
value differs from `cos θ / sin θ`. -/
theorem cota_is_relaxed_cotangent (a b : Fin 3 → ℝ) (ha : a ≠ 0) (hb : b ≠ 0) :
    cota a b = cotaSpec a b ∧
      ∃ a' b' : Fin 3 → ℝ, a' ≠ 0 ∧ b' ≠ 0 ∧
        cota a' b' ≠ Real.cos (cotaAngle a' b') / Real.sin (cotaAngle a' b') := by
  constructor
  · have hdot : dot3 (normalize a) (normalize b) = dot3 a b / (vnorm a * vnorm b) := by
      simp only [dot3, normalize, div_mul_div_comm]
      rw [div_add_div_same, div_add_div_same]
    simp only [cota, cotaSpec, cotaDenom, cotaAngle, hdot]
  · refine ⟨![1, 0, 0], ![1, 1, 0], ne_zero_e1, ne_zero_e12, ?_⟩
    have h2 : (0 : ℝ) < Real.sqrt 2 := Real.sqrt_pos.mpr (by norm_num)
    have hd0 : (0 : ℝ) < 1 / Real.sqrt 2 := by positivity
    have hd1 : (1 / Real.sqrt 2 : ℝ) ≤ 1 := by
      rw [div_le_one h2]
      have := Real.one_le_sqrt (x := 2)
      nlinarith [Real.sq_sqrt (by norm_num : (2:ℝ) ≥ 0), Real.sqrt_nonneg 2]
    have hang : cotaAngle ![1, 0, 0] ![1, 1, 0] = Real.arccos (1 / Real.sqrt 2) := by
      rw [cotaAngle, dot3_e1_e12]
    have hcos : Real.cos (cotaAngle ![1, 0, 0] ![1, 1, 0]) = 1 / Real.sqrt 2 := by
      rw [hang, Real.cos_arccos (by linarith) hd1]
    have hdsq : (1 / Real.sqrt 2 : ℝ) ^ 2 = 1 / 2 := by
      rw [div_pow, one_pow, Real.sq_sqrt (by norm_num : (0:ℝ) ≤ 2)]
    have hsin : Real.sin (cotaAngle ![1, 0, 0] ![1, 1, 0]) = Real.sqrt (1 / 2) := by
      rw [hang, Real.sin_arccos, hdsq]
      norm_num
    have hs0 : (0 : ℝ) < Real.sqrt (1 / 2) := Real.sqrt_pos.mpr (by norm_num)
    have hlt : cota ![1, 0, 0] ![1, 1, 0] <
        Real.cos (cotaAngle ![1, 0, 0] ![1, 1, 0]) /
          Real.sin (cotaAngle ![1, 0, 0] ![1, 1, 0]) := by
      rw [cota, cotaDenom, hcos, hsin]
      exact div_lt_div_of_pos_left hd0 hs0 (by norm_num)
    exact ne_of_lt hlt

theorem cota_is_relaxed_cotangent_witness :
    (![1, 0, 0] : Fin 3 → ℝ) ≠ 0 ∧ (![1, 1, 0] : Fin 3 → ℝ) ≠ 0 ∧
      (cota ![1, 0, 0] ![1, 1, 0] = cotaSpec ![1, 0, 0] ![1, 1, 0] ∧
        ∃ a' b' : Fin 3 → ℝ, a' ≠ 0 ∧ b' ≠ 0 ∧
          cota a' b' ≠ Real.cos (cotaAngle a' b') / Real.sin (cotaAngle a' b')) :=
  ⟨ne_zero_e1, ne_zero_e12,
    cota_is_relaxed_cotangent ![1, 0, 0] ![1, 1, 0] ne_zero_e1 ne_zero_e12⟩

/-- C10: `cota` is total and never divides by zero: whenever the normalized
dot product lies in `[-1, 1]`, the angle lies in `[0, π]`, its sine is
non-negative, and the denominator `sin x + 1e-8` is at least `1e-8 > 0`. -/
theorem cota_denominator_positive (a b : Fin 3 → ℝ)
    (h : dot3 (normalize a) (normalize b) ∈ Set.Icc (-1 : ℝ) 1) :
    0 ≤ Real.sin (cotaAngle a b) ∧
      (1e-8 : ℝ) ≤ cotaDenom a b ∧ 0 < cotaDenom a b ∧
      cota a b = Real.cos (cotaAngle a b) / cotaDenom a b := by
  have hsin : 0 ≤ Real.sin (cotaAngle a b) := by
    rw [cotaAngle, Real.sin_arccos]
    exact Real.sqrt_nonneg _
  refine ⟨hsin, ?_, ?_, rfl⟩
  · rw [cotaDenom]
    linarith
  · rw [cotaDenom]
    have : (0 : ℝ) < 1e-8 := by norm_num
    linarith

theorem cota_denominator_positive_witness :
    dot3 (normalize ![1, 0, 0]) (normalize ![1, 0, 0]) ∈ Set.Icc (-1 : ℝ) 1 ∧
      (0 ≤ Real.sin (cotaAngle ![1, 0, 0] ![1, 0, 0]) ∧
        (1e-8 : ℝ) ≤ cotaDenom ![1, 0, 0] ![1, 0, 0] ∧
        0 < cotaDenom ![1, 0, 0] ![1, 0, 0] ∧
        cota ![1, 0, 0] ![1, 0, 0] =
          Real.cos (cotaAngle ![1, 0, 0] ![1, 0, 0]) /
            cotaDenom ![1, 0, 0] ![1, 0, 0]) := by
  have hd : dot3 (normalize ![1, 0, 0]) (normalize ![1, 0, 0]) = 1 := by
    simp [dot3, normalize, vnorm_e1]
  refine ⟨?_, cota_denominator_positive _ _ ?_⟩ <;>
    rw [hd] <;> exact ⟨by norm_num, by norm_num⟩

/-! ### The mesh model and the discrete operators

Modelled from the spec: the corresponding notebook cells (`Na = `, `A = `,
`N = `, the `I,J,V` loop, `dA = `, `GradMat = `, `Grad = `, `DivMats = `,
`Div = `, `Delta = `, and the mass-matrix cell) are blank in the source. -/

/-- A triangle mesh: `n` vertex positions (3D) and `m` faces
(ordered triples of vertex indices). -/
structure Mesh (n m : ℕ) where
  pos : Fin n → Fin 3 → ℝ
  faces : Fin m → Fin 3 → Fin n

variable {n m : ℕ}

/-- Modelled from the spec: first edge `e1 = v2 − v1` of a face. -/
noncomputable def faceEdge1 (M : Mesh n m) (f : Fin m) : Fin 3 → ℝ :=
  fun s => M.pos (M.faces f 1) s - M.pos (M.faces f 0) s

/-- Modelled from the spec: second edge `e2 = v3 − v2` of a face. -/
noncomputable def faceEdge2 (M : Mesh n m) (f : Fin m) : Fin 3 → ℝ :=
  fun s => M.pos (M.faces f 2) s - M.pos (M.faces f 1) s

/-- Modelled from the spec: unnormalized face normal `Na = e1 ∧ e2`. -/
noncomputable def faceNa (M : Mesh n m) (f : Fin m) : Fin 3 → ℝ :=
  cross3 (faceEdge1 M f) (faceEdge2 M f)

/-- Modelled from the spec: face area `A = |Na| / 2`. -/
noncomputable def faceArea (M : Mesh n m) (f : Fin m) : ℝ :=
  vnorm (faceNa M f) / 2

/-- Modelled from the spec: unit face normal `N = Na / |Na|`. -/
noncomputable def unitNormal (M : Mesh n m) (f : Fin m) : Fin 3 → ℝ :=
  fun s => faceNa M f s / vnorm (faceNa M f)

/-- Modelled from the spec: the edge of face `f` opposite its `i`-th
vertex, oriented per the face's traversal order. -/
noncomputable def oppEdge (M : Mesh n m) (f : Fin m) : Fin 3 → Fin 3 → ℝ :=
  ![fun s => M.pos (M.faces f 2) s - M.pos (M.faces f 1) s,
    fun s => M.pos (M.faces f 0) s - M.pos (M.faces f 2) s,
    fun s => M.pos (M.faces f 1) s - M.pos (M.faces f 0) s]

/-- Modelled from the spec: the gradient operator applied to a vertex
scalar field, per face: `(∇u)_f = (1/(2A_f)) Σ_{i∈f} u_i (N_f ∧ e_i)`. -/
noncomputable def gradVec (M : Mesh n m) (u : Fin n → ℝ) (f : Fin m) :
    Fin 3 → ℝ :=
  (1 / (2 * faceArea M f)) •
    ∑ i : Fin 3, u (M.faces f i) • cross3 (unitNormal M f) (oppEdge M f i)

/-- The gradient operator as a map from vertex scalar fields to per-face
vector fields. -/
noncomputable def gradField (M : Mesh n m) (u : Fin n → ℝ) :
    Fin m → Fin 3 → ℝ :=
  gradVec M u

/-- Modelled from the spec: the divergence operator
`Div = −Gᵗ·diag(A_f)` applied to a per-face vector field, written
entrywise: the `(f,i)` contribution to vertex `j = faces f i` is
`A_f · (1/(2A_f)) · (N_f ∧ e_i) · V_f`. -/
noncomputable def divField (M : Mesh n m) (V : Fin m → Fin 3 → ℝ) :
    Fin n → ℝ :=
  fun j => -∑ f : Fin m, ∑ i : Fin 3,
    if M.faces f i = j then
      faceArea M f *
        (1 / (2 * faceArea M f) *
          dot3 (cross3 (unitNormal M f) (oppEdge M f i)) (V f))
    else 0

/-- Modelled from the spec: the div-grad Laplacian `Δ = Div·G`, as an
operator on vertex scalar fields. -/
noncomputable def deltaOp (M : Mesh n m) (u : Fin n → ℝ) : Fin n → ℝ :=
  divField M (gradField M u)

/-- The div-grad Laplacian as an `n × n` matrix (column `k` is `Δ` applied
to the `k`-th basis vector). -/
noncomputable def deltaMat (M : Mesh n m) : Matrix (Fin n) (Fin n) ℝ :=
  Matrix.of fun j k => deltaOp M (dirac k) j

/-- Modelled from the spec: the lumped mass matrix `diag(m_i)`,
`m_i = (1/3) · Σ` of areas of faces incident to vertex `i`. -/
noncomputable def massMat (M : Mesh n m) : Matrix (Fin n) (Fin n) ℝ :=
  Matrix.diagonal fun j =>
    (1 / 3) * ∑ f : Fin m, ∑ i : Fin 3,
      if M.faces f i = j then faceArea M f else 0

/-! ### Claim C6: gradient of a constant field is zero -/

/-- C6: for every mesh and every constant vertex scalar field, the
gradient operator yields the all-zero per-face vector field. -/
theorem gradField_const_eq_zero (M : Mesh n m) (c : ℝ) :
    gradField M (fun _ => c) = fun _ _ => 0 := by
  funext f s
  show gradVec M (fun _ => c) f s = 0
  unfold gradVec
  have h : ∑ i : Fin 3, (fun _ : Fin n => c) (M.faces f i) •
      cross3 (unitNormal M f) (oppEdge M f i) = 0 := by
    rw [Fin.sum_univ_three]
    funext t
    fin_cases t <;>
      simp [oppEdge, cross3, unitNormal] <;> ring
  rw [h, smul_zero]
  rfl

/-! ### Claim C9: degenerate faces abort operator construction -/

/-- Error taxonomy of the spec (the part relevant to construction). -/
inductive MeshError where
  | degenerateFace
  | invalidIndex
  deriving DecidableEq

/-- The operator bundle returned by `BuildOperators`. -/
structure Operators (n m : ℕ) where
  grad : (Fin n → ℝ) → Fin m → Fin 3 → ℝ
  div : (Fin m → Fin 3 → ℝ) → Fin n → ℝ
  laplacian : Matrix (Fin n) (Fin n) ℝ
  mass : Matrix (Fin n) (Fin n) ℝ

/-- The spec's "small epsilon" below which a face area is degenerate. -/
noncomputable def areaEps : ℝ := 1e-10

/-- Modelled from the spec: `BuildOperators(mesh)` fails with
`DegenerateFaceError` when some face area is below the epsilon, and only
otherwise returns the (fully built) operator bundle. -/
noncomputable def buildOperators (M : Mesh n m) :
    Except MeshError (Operators n m) :=
  if ∀ f, areaEps ≤ faceArea M f then
    .ok ⟨gradVec M, divField M, deltaMat M, massMat M⟩
  else
    .error .degenerateFace

/-- C9: a mesh containing a face of area below the epsilon makes operator
construction fail with `DegenerateFaceError`; no operator bundle is
produced. -/
theorem buildOperators_degenerate (M : Mesh n m)
    (h : ∃ f, faceArea M f < areaEps) :
    buildOperators M = .error .degenerateFace := by
  rw [buildOperators, if_neg]
  push_neg
  obtain ⟨f, hf⟩ := h
  exact ⟨f, hf⟩

/-- A degenerate mesh: one face of three collinear vertices. -/
noncomputable def degenerateMesh : Mesh 3 1 :=
  ⟨![![0, 0, 0], ![1, 0, 0], ![2, 0, 0]], ![![0, 1, 2]]⟩

theorem degenerateMesh_area : faceArea degenerateMesh 0 = 0 := by
  simp [degenerateMesh, faceArea, faceNa, faceEdge1, faceEdge2, cross3, vnorm,
    Matrix.vecHead, Matrix.vecTail, Function.comp]

theorem buildOperators_degenerate_witness :
    (∃ f, faceArea degenerateMesh f < areaEps) ∧
      buildOperators degenerateMesh = .error .degenerateFace := by
  have h : ∃ f, faceArea degenerateMesh f < areaEps :=
    ⟨0, by rw [degenerateMesh_area, areaEps]; norm_num⟩
  exact ⟨h, buildOperators_degenerate degenerateMesh h⟩

/-! ### Farthest point sampling (claims C7 and C8)

Modelled from the spec: the FPS cell of the source is `## insert your code
here`.  Per the spec, the sampler keeps a selected list `S` (initialized
with the seed) and a running minimum-distance field `D` (initialized to
`+∞`); each iteration computes the distance field from the most recently
added vertex (here an oracle `dist`, standing for the `GeodesicSolver`
call), takes pointwise minima, and appends the argmax of `D` over vertices
not yet selected, ties broken by smallest index.  It stops after `k`
iterations or when every vertex is selected. -/

/-- Selection step: argmax of `D` over the not-yet-selected vertices,
ties broken by smallest index (`List.argmax` keeps the first maximal
element of the ascending list `finRange n`). -/
def selectNext {n : ℕ} (S : List (Fin n)) (D : Fin n → WithTop ℚ) :
    Option (Fin n) :=
  ((List.finRange n).filter (fun v => decide (v ∉ S))).argmax D

/-- The FPS loop: `fuel` remaining iterations, selected list `S`,
most recently added vertex `last`, running minimum-distance field `D`. -/
def fpsGo {n : ℕ} (dist : Fin n → Fin n → ℚ) :
    ℕ → List (Fin n) → Fin n → (Fin n → WithTop ℚ) → List (Fin n)
  | 0, S, _, _ => S
  | fuel + 1, S, last, D =>
    let Dnew : Fin n → WithTop ℚ := fun i => min (D i) ((dist last i : ℚ) : WithTop ℚ)
    match selectNext S Dnew with
    | none => S
    | some v => fpsGo dist fuel (S ++ [v]) v Dnew

/-- Modelled from the spec: `FarthestPointSample` for `k` samples from a
seed vertex, with the geodesic-distance fields supplied by the oracle
`dist` (one scalar field per source vertex). -/
def fps {n : ℕ} (dist : Fin n → Fin n → ℚ) (k : ℕ) (seed : Fin n) :
    List (Fin n) :=
  fpsGo dist (k - 1) [seed] seed (fun _ => ⊤)

theorem selectNext_not_mem {n : ℕ} {S : List (Fin n)} {D : Fin n → WithTop ℚ}
    {v : Fin n} (h : selectNext S D = some v) : v ∉ S := by
  have hv := List.argmax_mem (show v ∈ _ from h)
  rw [List.mem_filter] at hv
  exact of_decide_eq_true hv.2

theorem selectNext_isSome {n : ℕ} {S : List (Fin n)} {D : Fin n → WithTop ℚ}
    (h : ∃ v, v ∉ S) : ∃ v, selectNext S D = some v := by
  obtain ⟨v, hv⟩ := h
  rcases ho : selectNext S D with _ | w
  · exfalso
    have hnil := List.argmax_eq_none.mp ho
    rw [List.filter_eq_nil_iff] at hnil
    exact hnil v (List.mem_finRange v) (decide_eq_true hv)
  · exact ⟨w, rfl⟩

theorem exists_not_mem_of_length_lt {n : ℕ} {S : List (Fin n)}
    (hS : S.Nodup) (hlen : S.length < n) : ∃ v, v ∉ S := by
  by_contra hall
  push_neg at hall
  have huniv : (Finset.univ : Finset (Fin n)) ⊆ S.toFinset := by
    intro v _
    exact List.mem_toFinset.mpr (hall v)
  have hcard : n ≤ S.length := by
    calc n = Fintype.card (Fin n) := (Fintype.card_fin n).symm
    _ = (Finset.univ : Finset (Fin n)).card := Finset.card_univ.symm
    _ ≤ S.toFinset.card := Finset.card_le_card huniv
    _ = S.length := List.toFinset_card_of_nodup hS
  omega

theorem fpsGo_nodup_length {n : ℕ} (dist : Fin n → Fin n → ℚ) :
    ∀ (fuel : ℕ) (S : List (Fin n)) (last : Fin n) (D : Fin n → WithTop ℚ),
      S.Nodup → S.length + fuel = n →
      (fpsGo dist fuel S last D).Nodup ∧ (fpsGo dist fuel S last D).length = n := by
  intro fuel
  induction fuel with
  | zero =>
    intro S last D hS hlen
    simpa [fpsGo] using ⟨hS, hlen⟩
  | succ fuel ih =>
    intro S last D hS hlen
    have hlt : S.length < n := by omega
    obtain ⟨w, hw⟩ := selectNext_isSome
      (D := fun i => min (D i) ((dist last i : ℚ) : WithTop ℚ))
      (exists_not_mem_of_length_lt hS hlt)
    have hwS : w ∉ S := selectNext_not_mem hw
    have hS' : (S ++ [w]).Nodup := by
      rw [List.nodup_append]
      refine ⟨hS, List.nodup_singleton w, ?_⟩
      intro a haS hal
      rw [List.mem_singleton] at hal
      subst hal
      exact hwS haS
    have hlen' : (S ++ [w]).length + fuel = n := by
      simp only [List.length_append, List.length_singleton]
      omega
    have := ih (S ++ [w]) w
      (fun i => min (D i) ((dist last i : ℚ) : WithTop ℚ)) hS' hlen'
    simpa [fpsGo, hw] using this

/-- C7: `FarthestPointSample` with `k = 1` returns exactly `[seed]`, and
with `k = n` returns all `n` vertex indices with no repeats (a permutation
of the vertex set). -/
theorem fps_k_one_and_k_n {n : ℕ} (dist : Fin n → Fin n → ℚ) (seed : Fin n) :
    fps dist 1 seed = [seed] ∧
      (fps dist n seed).Nodup ∧ (fps dist n seed).length = n ∧
      ∀ v : Fin n, v ∈ fps dist n seed := by
  have hpos : 0 < n := seed.pos
  have hbase : ([seed] : List (Fin n)).length + (n - 1) = n := by
    simp only [List.length_singleton]
    omega
  have hmain := fpsGo_nodup_length dist (n - 1) [seed] seed (fun _ => ⊤)
    (List.nodup_singleton seed) hbase
  refine ⟨rfl, hmain.1, hmain.2, ?_⟩
  intro v
  have hfin : (fps dist n seed).toFinset = Finset.univ := by
    apply Finset.eq_univ_of_card
    simp only [fps]
    rw [List.toFinset_card_of_nodup hmain.1, hmain.2, Fintype.card_fin]
  have : v ∈ (fps dist n seed).toFinset := by
    rw [hfin]
    exact Finset.mem_univ v
  exact List.mem_toFinset.mp this

/-- C8: `FarthestPointSample` is deterministic: two invocations with equal
distance oracle (mesh, operators, `t`), equal `k` and equal seed — the
tie-break rule being fixed as argmax with smallest index — return the
identical output sequence. -/
theorem fps_deterministic {n : ℕ} (d₁ d₂ : Fin n → Fin n → ℚ)
    (k₁ k₂ : ℕ) (s₁ s₂ : Fin n)
    (hd : d₁ = d₂) (hk : k₁ = k₂) (hs : s₁ = s₂) :
    fps d₁ k₁ s₁ = fps d₂ k₂ s₂ := by
  subst hd
  subst hk
  subst hs
  rfl

theorem fps_deterministic_witness :
    (fun _ _ : Fin 2 => (0 : ℚ)) = (fun _ _ : Fin 2 => (0 : ℚ)) ∧
      (2 : ℕ) = 2 ∧ (0 : Fin 2) = 0 ∧
      fps (fun _ _ => (0 : ℚ)) 2 (0 : Fin 2) = fps (fun _ _ => (0 : ℚ)) 2 (0 : Fin 2) :=
  ⟨rfl, rfl, rfl, fps_deterministic _ _ 2 2 0 0 rfl rfl rfl⟩

/-! ### The geodesic pipeline (claim C2)

Modelled from the spec: the geodesic-in-heat cell of the source is
`## insert your code here`.  Per the spec's four stages: Dirac source,
heat step, gradient normalization with an epsilon guard (the guard is
modelled in the same `+ε` style the source uses in `cota`), and the
Poisson step, whose rank-deficient system is handled by pinning the
source's degree of freedom to zero (the first of the spec's listed
options) followed by the spec's post-hoc shift `φ - φ[source]`. -/

/-- The heat-step solution on a mesh: `(Mass + t·Δ) u = δᵢ`. -/
noncomputable def heatU (M : Mesh n m) (i : Fin n) (t : ℝ) : Fin n → ℝ :=
  heatStep (massMat M) (deltaMat M) t i

/-- Modelled from the spec: gradient normalization
`Y = −X/(‖X‖+ε)` with the epsilon guard `ε = 1e-8`. -/
noncomputable def vecY (M : Mesh n m) (u : Fin n → ℝ) : Fin m → Fin 3 → ℝ :=
  fun f => (-(1 / (vnorm (gradVec M u f) + 1e-8))) • gradVec M u f

/-- Pin row `i` of a matrix to the corresponding unit row (fixing one
degree of freedom of the rank-deficient Poisson system). -/
def pinMat (A : Matrix (Fin n) (Fin n) ℝ) (i : Fin n) :
    Matrix (Fin n) (Fin n) ℝ :=
  Matrix.of fun r c => if r = i then (if c = i then (1 : ℝ) else 0) else A r c

/-- Right-hand side with the pinned row zeroed. -/
def pinVec (b : Fin n → ℝ) (i : Fin n) : Fin n → ℝ :=
  fun r => if r = i then 0 else b r

/-- The Poisson-step potential: solve the pinned system
`Δ φ = Div Y` (row `i` pinned). -/
noncomputable def poissonPhi (M : Mesh n m) (i : Fin n) (t : ℝ) : Fin n → ℝ :=
  linsolve (pinMat (deltaMat M) i) (pinVec (divField M (vecY M (heatU M i t))) i)

/-- `GeodesicDistance(mesh, operators, source, t)`: the potential shifted
by its value at the source (the spec's post-hoc additive-constant fix). -/
noncomputable def geodesicDistance (M : Mesh n m) (i : Fin n) (t : ℝ) :
    Fin n → ℝ :=
  fun j => poissonPhi M i t j - poissonPhi M i t i

/-- C2 (amended): `GeodesicDistance` returns one value per vertex and its
value at the source index is exactly 0 (the additive constant being fixed
by subtracting `φ[source]`).  The entries need not all be non-negative
(see the counterexample). -/
theorem geodesicDistance_source_eq_zero (M : Mesh n m) (i : Fin n) (t : ℝ) :
    geodesicDistance M i t i = 0 := by
  rw [geodesicDistance]
  exact sub_self _

/-- A single right triangle: vertices `(0,0,0)`, `(1,0,0)`, `(0,1,0)`,
one face `(0,1,2)`. -/
noncomputable def triMesh : Mesh 3 1 :=
  ⟨![![0, 0, 0], ![1, 0, 0], ![0, 1, 0]], ![![0, 1, 2]]⟩

theorem triMesh_Na : faceNa triMesh 0 = ![0, 0, 1] := by
  funext s
  fin_cases s <;>
    simp [triMesh, faceNa, faceEdge1, faceEdge2, cross3,
      Matrix.vecHead, Matrix.vecTail] <;> norm_num

theorem triMesh_area : faceArea triMesh 0 = 1 / 2 := by
  rw [faceArea, triMesh_Na]
  simp [vnorm, Matrix.vecHead, Matrix.vecTail]

theorem triMesh_N : unitNormal triMesh 0 = ![0, 0, 1] := by
  have h1 : vnorm ![0, 0, 1] = 1 := by
    simp [vnorm, Matrix.vecHead, Matrix.vecTail]
  funext s
  simp only [unitNormal]
  rw [triMesh_Na, h1, div_one]

theorem triMesh_grad (u : Fin 3 → ℝ) :
    gradVec triMesh u 0 = ![u 1 - u 0, u 2 - u 0, 0] := by
  unfold gradVec
  rw [triMesh_area, triMesh_N]
  funext s
  fin_cases s <;>
    simp [triMesh, oppEdge, cross3, Fin.sum_univ_three,
      Matrix.vecHead, Matrix.vecTail] <;> ring

theorem triMesh_cross0 :
    cross3 (unitNormal triMesh 0) (oppEdge triMesh 0 0) = ![-1, -1, 0] := by
  rw [triMesh_N]
  funext s
  fin_cases s <;>
    simp [cross3, oppEdge, triMesh, Matrix.vecHead, Matrix.vecTail] <;>
    norm_num

theorem triMesh_cross1 :
    cross3 (unitNormal triMesh 0) (oppEdge triMesh 0 1) = ![1, 0, 0] := by
  rw [triMesh_N]
  funext s
  fin_cases s <;>
    simp [cross3, oppEdge, triMesh, Matrix.vecHead, Matrix.vecTail] <;>
    norm_num

theorem triMesh_cross2 :
    cross3 (unitNormal triMesh 0) (oppEdge triMesh 0 2) = ![0, 1, 0] := by
  rw [triMesh_N]
  funext s
  fin_cases s <;>
    simp [cross3, oppEdge, triMesh, Matrix.vecHead, Matrix.vecTail] <;>
    norm_num

theorem triMesh_div (V : Fin 1 → Fin 3 → ℝ) :
    divField triMesh V = ![(V 0 0 + V 0 1) / 2, -(V 0 0) / 2, -(V 0 1) / 2] := by
  funext j
  simp only [divField, Fin.sum_univ_one, Fin.sum_univ_three,
    triMesh_cross0, triMesh_cross1, triMesh_cross2, triMesh_area, dot3]
  fin_cases j <;>
    simp [triMesh, Matrix.vecHead, Matrix.vecTail] <;> ring

theorem triMesh_delta :
    deltaMat triMesh =
      !![-1, 1/2, 1/2; 1/2, -1/2, 0; 1/2, 0, -1/2] := by
  funext j k
  show deltaOp triMesh (dirac k) j = _
  rw [deltaOp, gradField, triMesh_div, triMesh_grad (dirac k)]
  fin_cases j <;> fin_cases k <;>
    simp [dirac, Matrix.vecHead, Matrix.vecTail] <;> norm_num

theorem triMesh_mass :
    massMat triMesh = !![1/6, 0, 0; 0, 1/6, 0; 0, 0, 1/6] := by
  funext j k
  rw [massMat, Matrix.diagonal_apply]
  simp only [Fin.sum_univ_one, Fin.sum_univ_three]
  rw [triMesh_area]
  fin_cases j <;> fin_cases k <;>
    simp [triMesh, Matrix.vecHead, Matrix.vecTail] <;> norm_num

theorem triMesh_heat_matrix :
    massMat triMesh + (1 : ℝ) • deltaMat triMesh =
      !![-5/6, 1/2, 1/2; 1/2, -1/3, 0; 1/2, 0, -1/3] := by
  rw [triMesh_mass, triMesh_delta]
  funext j k
  fin_cases j <;> fin_cases k <;>
    simp [Matrix.add_apply, Matrix.smul_apply, Matrix.vecHead,
      Matrix.vecTail] <;> norm_num

theorem triMesh_heatU : heatU triMesh 0 1 = ![3/2, 9/4, 9/4] := by
  rw [heatU, heatStep]
  apply linsolve_unique
  · rw [triMesh_heat_matrix, Matrix.det_fin_three]
    norm_num [Matrix.vecHead, Matrix.vecTail]
  · rw [triMesh_heat_matrix]
    funext j
    fin_cases j <;>
      simp [Matrix.mulVec, Matrix.dotProduct, Fin.sum_univ_three, dirac,
        Matrix.vecHead, Matrix.vecTail] <;>
      norm_num

/-- The common (negative) first two components of the normalized negated
gradient field on `triMesh` at source 0, `t = 1`. -/
noncomputable def yTri : ℝ := -(3 / 4) / (Real.sqrt (9 / 8) + 1e-8)

theorem yTri_neg : yTri < 0 := by
  rw [yTri]
  apply div_neg_of_neg_of_pos
  · norm_num
  · have h := Real.sqrt_nonneg (9 / 8 : ℝ)
    have h8 : (0 : ℝ) < 1e-8 := by norm_num
    linarith

theorem triMesh_X : gradVec triMesh (heatU triMesh 0 1) 0 = ![3/4, 3/4, 0] := by
  rw [triMesh_heatU, triMesh_grad]
  funext s
  fin_cases s <;> simp [Matrix.vecHead, Matrix.vecTail] <;> norm_num

theorem triMesh_Y :
    vecY triMesh (heatU triMesh 0 1) = fun _ => ![yTri, yTri, 0] := by
  have hnorm : vnorm ![(3/4 : ℝ), 3/4, 0] = Real.sqrt (9 / 8) := by
    rw [vnorm]
    have harg : ((![(3/4 : ℝ), 3/4, 0]) 0 ^ 2 + (![(3/4 : ℝ), 3/4, 0]) 1 ^ 2 +
        (![(3/4 : ℝ), 3/4, 0]) 2 ^ 2) = 9 / 8 := by
      simp [Matrix.vecHead, Matrix.vecTail]
      norm_num
    rw [harg]
  funext f s
  have hf : f = 0 := Subsingleton.elim f 0
  subst hf
  simp only [vecY, triMesh_X, hnorm]
  fin_cases s <;>
    simp [yTri, Matrix.vecHead, Matrix.vecTail, smul_eq_mul] <;> ring

theorem triMesh_rhs :
    divField triMesh (vecY triMesh (heatU triMesh 0 1)) =
      ![yTri, -yTri / 2, -yTri / 2] := by
  rw [triMesh_Y, triMesh_div]
  funext j
  fin_cases j <;> simp [Matrix.vecHead, Matrix.vecTail] <;> ring

theorem triMesh_pinned :
    pinMat (deltaMat triMesh) 0 =
      !![1, 0, 0; 1/2, -1/2, 0; 1/2, 0, -1/2] := by
  rw [triMesh_delta]
  funext j k
  simp only [pinMat, Matrix.of_apply]
  fin_cases j <;> fin_cases k <;>
    simp [Matrix.vecHead, Matrix.vecTail]

theorem triMesh_phi : poissonPhi triMesh 0 1 = ![0, yTri, yTri] := by
  rw [poissonPhi]
  apply linsolve_unique
  · rw [triMesh_pinned, Matrix.det_fin_three]
    norm_num [Matrix.vecHead, Matrix.vecTail]
  · rw [triMesh_pinned, triMesh_rhs]
    funext j
    fin_cases j <;>
      simp [Matrix.mulVec, Matrix.dotProduct, Fin.sum_univ_three, pinVec,
        Matrix.vecHead, Matrix.vecTail] <;>
      ring

/-- C2 (counterexample): on the single-right-triangle mesh, with valid
source index 0 and positive time step `t = 1`, the returned field has a
strictly negative entry at vertex 1 — the claim's non-negativity fails. -/
theorem geodesicDistance_not_nonneg :
    geodesicDistance triMesh 0 1 1 < 0 ∧
      ¬ ∀ j, 0 ≤ geodesicDistance triMesh 0 1 j := by
  have hval : geodesicDistance triMesh 0 1 1 = yTri := by
    rw [geodesicDistance, triMesh_phi]
    simp
  constructor
  · rw [hval]
    exact yTri_neg
  · intro hall
    have := hall 1
    rw [hval] at this
    exact absurd this (not_le.mpr yTri_neg)

/-! ### Sparse representation and the dense conversion in the source
(claim C5)

The source's only linear solve is
`u = np.squeeze(np.linalg.solve((Ac+t*Delta).toarray(),delta))`:
the sparse system matrix is converted to a dense array with `.toarray()`
and handed to the dense solver `np.linalg.solve` — there is no sparse
factorization anywhere in the source. -/

/-- A scipy sparse matrix in coordinate form: (row, column, value)
triples; duplicate entries accumulate. -/
abbrev SparseM (n : ℕ) : Type := List (Fin n × Fin n × ℚ)

/-- `.toarray()`: densify a sparse matrix. -/
def toarray {n : ℕ} (S : SparseM n) : Matrix (Fin n) (Fin n) ℚ :=
  Matrix.of fun i j =>
    ((S.filter (fun e => decide (e.1 = i ∧ e.2.1 = j))).map (fun e => e.2.2)).sum

/-- Scalar multiplication on the sparse representation (`t*Delta`). -/
def spSmul {n : ℕ} (t : ℚ) (S : SparseM n) : SparseM n :=
  S.map (fun e => (e.1, e.2.1, t * e.2.2))

/-- Addition on the sparse representation (`Ac+t*Delta`). -/
def spAdd {n : ℕ} (S T : SparseM n) : SparseM n := S ++ T

theorem toarray_spAdd_spSmul {n : ℕ} (Ac Delta : SparseM n) (t : ℚ) :
    toarray (spAdd Ac (spSmul t Delta)) = toarray Ac + t • toarray Delta := by
  funext i j
  show ((List.filter _ (Ac ++ spSmul t Delta)).map _).sum = _
  rw [List.filter_append, List.map_append, List.sum_append]
  congr 1
  show ((List.filter _ (Delta.map _)).map _).sum = t * _
  rw [List.filter_map, List.map_map]
  rw [show (fun e : Fin n × Fin n × ℚ => decide (e.1 = i ∧ e.2.1 = j)) ∘
      (fun e : Fin n × Fin n × ℚ => (e.1, e.2.1, t * e.2.2)) =
      fun e : Fin n × Fin n × ℚ => decide (e.1 = i ∧ e.2.1 = j) from rfl]
  rw [show ((fun e : Fin n × Fin n × ℚ => e.2.2) ∘
      (fun e : Fin n × Fin n × ℚ => (e.1, e.2.1, t * e.2.2))) =
      fun e : Fin n × Fin n × ℚ => t * e.2.2 from rfl]
  exact List.sum_map_mul_left _ _ _

/-- The source heat step as written: the sparse `Ac+t*Delta` is densified
with `.toarray()` and passed to the dense solver. -/
def heatStepSrc {n : ℕ} (Ac Delta : SparseM n) (t : ℚ) (i : Fin n) :
    Fin n → ℚ :=
  linsolve (toarray (spAdd Ac (spSmul t Delta))) (dirac i)

/-- C5 (what the code actually does): the source's heat-step solve is the
dense solve of the `.toarray()`-densified system matrix — not a sparse
factorization — and (when the system is nonsingular) that dense route
still solves `(Mass + t·Δ) u = δ`. -/
theorem heatStepSrc_dense_route {n : ℕ} (Ac Delta : SparseM n) (t : ℚ)
    (i : Fin n) (hdet : (toarray Ac + t • toarray Delta).det ≠ 0) :
    heatStepSrc Ac Delta t i =
        linsolve (toarray (spAdd Ac (spSmul t Delta))) (dirac i) ∧
      (toarray Ac + t • toarray Delta) *ᵥ heatStepSrc Ac Delta t i = dirac i := by
  refine ⟨rfl, ?_⟩
  rw [heatStepSrc, toarray_spAdd_spSmul]
  exact linsolve_solves hdet _

theorem heatStepSrc_dense_route_witness :
    ((toarray [((0 : Fin 1), (0 : Fin 1), (2 : ℚ))] +
        (1 : ℚ) • toarray [((0 : Fin 1), (0 : Fin 1), (1 : ℚ))]).det ≠ 0) ∧
      (heatStepSrc [((0 : Fin 1), (0 : Fin 1), (2 : ℚ))]
          [((0 : Fin 1), (0 : Fin 1), (1 : ℚ))] 1 0 =
        linsolve (toarray (spAdd [((0 : Fin 1), (0 : Fin 1), (2 : ℚ))]
          (spSmul 1 [((0 : Fin 1), (0 : Fin 1), (1 : ℚ))]))) (dirac 0) ∧
      (toarray [((0 : Fin 1), (0 : Fin 1), (2 : ℚ))] +
          (1 : ℚ) • toarray [((0 : Fin 1), (0 : Fin 1), (1 : ℚ))]) *ᵥ
        heatStepSrc [((0 : Fin 1), (0 : Fin 1), (2 : ℚ))]
          [((0 : Fin 1), (0 : Fin 1), (1 : ℚ))] 1 0 = dirac 0) :=
  have hdet : (toarray [((0 : Fin 1), (0 : Fin 1), (2 : ℚ))] +
      (1 : ℚ) • toarray [((0 : Fin 1), (0 : Fin 1), (1 : ℚ))]).det ≠ 0 := by
    rw [Matrix.det_fin_one]
    simp [toarray]
    norm_num
  ⟨hdet, heatStepSrc_dense_route _ _ 1 0 hdet⟩

end Geodesics
